import Mathlib

/-!
Verification of the DigiSafe controller core
(`src/digisafe_c/digisafe_c/main.cpp`).

The development shallowly embeds the persistent code store (EEPROM layout,
`lock::update_code`, `lock::read_code`, `lock::del_code`), the `lock` /
`lock_box` comparison logic, and the relevant parts of the `state_machine`
class, and proves the behavioural properties of those operations.

Modelling conventions:
* EEPROM is a total byte map `Nat → Nat`; `EEPROM_read` returns one byte
  (the data register is 8 bits wide), so reads are taken modulo 256, and
  `EEPROM_write` stores its `unsigned char` argument modulo 256.
* `unsigned int` address arithmetic on the AVR target is 16 bits wide, so
  every address computation wraps modulo 2^16 (`a16`).
* The unbounded `while(find)` scan of `lock::update_code` is modelled with
  explicit fuel; `none` means the loop does not finish within `fuel`
  iterations (so "for every fuel, `none`" models non-termination).
* Key scanning, LED output and busy-wait delays (`getKey`, `err`, `delay`,
  `PORTB`/`PORTC` traffic) are I/O with no effect on the embedded state and
  are dropped from the state-transforming functions.
-/

/-- EEPROM contents: a byte value for every address. -/
def Mem : Type := Nat → Nat

/-- EEPROM_read: returns the byte stored at an address (the data register
holds 8 bits). -/
def rd (m : Mem) (a : Nat) : Nat := m a % 256

/-- EEPROM_write: stores one byte (`unsigned char ucData`) at an address. -/
def wr (m : Mem) (a v : Nat) : Mem := fun x => if x = a then v % 256 else m x

/-- 16-bit `unsigned int` arithmetic wraps modulo 2^16. -/
def a16 (n : Nat) : Nat := n % 65536

/-- The occupied-cell marker byte 0xCC used by `lock::update_code` and
`lock::del_code`. -/
def OCC : Nat := 0xCC

/-- One code slot (class `lock`): the meaningful prefix of the `code[MAXLEN]`
array (its first `code_length` digits) is modelled as the list `code`;
`active` is the `int8_t active` status flag (0 empty, 1 complete, 2
cancelled). Digits past `code_length` are never readable in the source
(`get_code_digit` hangs out of range), so only the prefix is kept. -/
structure lock where
  code : List Nat
  active : Nat
deriving DecidableEq

/-- lock::get_code_len. -/
def lock.get_code_len (l : lock) : Nat := l.code.length

/-- lock::set_active: for `num` in 0..2 stores the flag and, when `num ≠ 1`,
resets `code_length` to 0 (modelled by clearing the digit prefix).  For any
other argument the source hangs in `while(1)`; every call site passes the
constant 0, 1 or 2, so that branch leaves the lock unchanged here. -/
def lock.set_active (l : lock) (num : Nat) : lock :=
  if num ≤ 2 then ⟨if num = 1 then l.code else [], num⟩ else l

/-- Digit-by-digit loop of lock::compare_code, which runs over the common
length after the caller has checked the two lengths are equal. -/
def cmpDigits : List Nat → List Nat → Bool
  | a :: as, b :: bs => a == b && cmpDigits as bs
  | _, _ => true

/-- lock::compare_code: result 1 when lengths and all digits agree, 0
otherwise; in every branch the comparand is consumed by
`comp->set_active(0)`. Returns the result together with the consumed
comparand. -/
def lock.compare_code (self comp : lock) : Nat × lock :=
  if self.code.length ≠ comp.code.length then (0, comp.set_active 0)
  else if cmpDigits self.code comp.code then (1, comp.set_active 0)
  else (0, comp.set_active 0)

/-- The collection class `lock_box`: four compartment locks, the admin lock,
the scratch lock for the code being typed, the selected compartment and the
consecutive-failure counter `attempt`. -/
structure lock_box where
  select : Nat
  attempt : Nat
  safe : List lock
  admin_code : lock
  temp_code : lock
deriving DecidableEq

/-- lock_box::set_select: stores `num` when it is in 0..3 (the source hangs
otherwise; call sites pass `key-12` with `key` in 12..15). -/
def lock_box.set_select (b : lock_box) (num : Nat) : lock_box :=
  if num ≤ 3 then { b with select := num } else b

/-- lock_box::check_active. -/
def lock_box.check_active (b : lock_box) : Nat :=
  (b.safe.getD b.select ⟨[], 0⟩).active

/-- lock_box::set_active (applies to the selected compartment). -/
def lock_box.set_active (b : lock_box) (num : Nat) : lock_box :=
  { b with safe := b.safe.set b.select ((b.safe.getD b.select ⟨[], 0⟩).set_active num) }

/-- lock_box::compare_code: compares the scratch code against the selected
safe (`code_sel = 0`) or the admin code (`code_sel = 1`).  On a mismatch the
shared `attempt` counter is incremented and, when it reaches 3, reset to 0
with result 2 (lockout).  Call sites only pass 0 or 1 (for any other value
the source reads the uninitialized `val`). -/
def lock_box.compare_code (b : lock_box) (code_sel : Nat) : Nat × lock_box :=
  let res := if code_sel = 0 then (b.safe.getD b.select ⟨[], 0⟩).compare_code b.temp_code
             else b.admin_code.compare_code b.temp_code
  if res.1 = 0 then
    if b.attempt + 1 = 3 then (2, { b with temp_code := res.2, attempt := 0 })
    else (res.1, { b with temp_code := res.2, attempt := b.attempt + 1 })
  else (res.1, { b with temp_code := res.2 })

/-- The comparison target selected by `code_sel` inside
`lock_box::compare_code` (specification-side abbreviation for stating
theorems about that dispatch). -/
def lock_box.targetOf (b : lock_box) (code_sel : Nat) : lock :=
  if code_sel = 0 then b.safe.getD b.select ⟨[], 0⟩ else b.admin_code

/-- One authentication attempt as driven by the state machine: the operator
re-enters a code into the scratch lock (`lock::set_code`, which the previous
comparison left empty) and the box compares it.  Models a call of
`lock_box::compare_code` with a freshly typed scratch code `t`. -/
def stepCmp (b : lock_box) (t : lock) (code_sel : Nat) : Nat × lock_box :=
  lock_box.compare_code { b with temp_code := t } code_sel

/-- The state enumeration of the state machine. -/
inductive states where
  | initial | userLocked | adminLocked | adminUnlocked | safeSelect
  | userUnlocked | editCode | lockout
deriving DecidableEq

/-- The state machine: current and (one-level) previous state plus the
lock box. -/
structure state_machine where
  current_state : states
  last_state : states
  digi_safe : lock_box
deriving DecidableEq

/-- state_machine::set_state (the PORTB indicator write is I/O only). -/
def state_machine.set_state (sm : state_machine) (next : states) : state_machine :=
  { sm with last_state := sm.current_state, current_state := next }

/-- state_machine::back_state: swaps current and last state. -/
def state_machine.back_state (sm : state_machine) : state_machine :=
  { sm with current_state := sm.last_state, last_state := sm.current_state }

/-- state_machine::lockout_state: LOCKTIME `err()` alert flashes (I/O only)
followed by `set_state(last_state)`. -/
def state_machine.lockout_state (sm : state_machine) : state_machine :=
  sm.set_state sm.last_state

/-- The `while(find)` first-fit scan of lock::update_code: step to the next
4-byte cell while the marker byte reads 0xCC, claim the first address whose
marker does not.  The 16-bit scan pointer wraps modulo 2^16.  `fuel` bounds
the number of iterations; `none` means the loop has not finished within
`fuel` steps (the source has no bound at all). -/
def findFree (m : Mem) : Nat → Nat → Option Nat
  | 0, _ => none
  | fuel + 1, search =>
    if rd m search = OCC then findFree m fuel (a16 (search + 4)) else some search

/-- The per-digit body of lock::update_code: for each digit, scan for a free
cell, store its 16-bit address into the previous link (`point`, `point+1` —
the header pointer bytes for the first digit, the previous cell's bytes 2–3
afterwards), mark the claimed cell 0xCC, store the digit at its byte 1, and
continue with `point` at the claimed cell's byte 2 and the scan resuming at
the following cell. -/
def storeChain (m : Mem) (point search : Nat) : List Nat → Nat → Option (Mem × Nat × Nat)
  | [], _ => some (m, point, search)
  | d :: ds, fuel =>
    match findFree m fuel search with
    | none => none
    | some s =>
      let m1 := wr m point (s >>> 8 % 256)
      let m2 := wr m1 (a16 (point + 1)) (s % 256)
      let m3 := wr m2 s OCC
      let m4 := wr m3 (a16 (s + 1)) d
      storeChain m4 (a16 (s + 2)) (a16 (s + 4)) ds fuel

/-- lock::update_code: writes 1 (active) and the new length into the slot's
header record at `(pos*4)+4`, then allocates one cell per digit with the
first-fit scan starting at the heap base 24.  On success the lock itself
holds the new digits with `active = 1` and the donor code is consumed via
`set_active(0)`.  An empty donor code would reach `get_code_digit(0)` out of
range, which hangs in the source; that is modelled as `none` (as is scan
fuel exhaustion). -/
def lock.update_code (_self new_code : lock) (pos : Nat) (m : Mem) (fuel : Nat) :
    Option (lock × lock × Mem) :=
  let point := a16 (pos * 4 + 4)
  let m1 := wr m point 1
  let m2 := wr m1 (a16 (point + 1)) new_code.code.length
  if new_code.code = [] then none
  else
    match storeChain m2 (a16 (point + 2)) 24 new_code.code fuel with
    | none => none
    | some (m3, _, _) => some (⟨new_code.code, 1⟩, new_code.set_active 0, m3)

/-- The chain-walking loop of lock::read_code: read the 16-bit pointer from
`point`/`point+1`, jump to that cell, read its digit (byte 1) and continue
from its own pointer field (bytes 2–3), for the stored length many steps. -/
def readChain (m : Mem) : Nat → Nat → List Nat
  | _, 0 => []
  | point, n + 1 =>
    let hi := rd m point
    let lo := rd m (a16 (point + 1))
    let cell := lo ||| (hi <<< 8)
    rd m (a16 (cell + 1)) :: readChain m (a16 (cell + 2)) n

/-- lock::read_code: if the slot's header active byte at `(pos*4)+4` is 1,
set active, read the length byte and follow the pointer chain; otherwise the
lock object is left untouched. -/
def lock.read_code (self : lock) (pos : Nat) (m : Mem) : lock :=
  let point := a16 (pos * 4 + 4)
  if rd m point = 1 then
    ⟨readChain m (a16 (point + 2)) (rd m (a16 (point + 1))), 1⟩
  else self

/-- The loop of lock::del_code: starting at the slot's header record, write 0
over the byte at `point` (the active flag first, then each visited cell's
marker), read the 16-bit pointer at `point+2`/`point+3` and jump there.  Runs
`code_length + 1` times in the source (`i <= code_length`). -/
def delLoop (m : Mem) : Nat → Nat → Mem
  | _, 0 => m
  | point, n + 1 =>
    let m1 := wr m point 0
    let hi := rd m1 (a16 (point + 2))
    let lo := rd m1 (a16 (point + 3))
    delLoop m1 (lo ||| (hi <<< 8)) n

/-- lock::del_code: clears the slot's header active byte and the markers of
`code_length` chain cells (the in-memory length, not the stored one). -/
def lock.del_code (self : lock) (pos : Nat) (m : Mem) : Mem :=
  delLoop m (a16 (pos * 4 + 4)) (self.code.length + 1)

/-- lock_box::update_code: `code_sel` 0 targets the selected safe (slot
`select+1`), 1 targets the admin code (slot 0); other values hang in the
source. -/
def lock_box.update_code (b : lock_box) (code_sel : Nat) (m : Mem) (fuel : Nat) :
    Option (lock_box × Mem) :=
  if code_sel = 0 then
    match (b.safe.getD b.select ⟨[], 0⟩).update_code b.temp_code (b.select + 1) m fuel with
    | none => none
    | some (l, t, m') =>
      some ({ b with safe := b.safe.set b.select l, temp_code := t }, m')
  else
    match b.admin_code.update_code b.temp_code 0 m fuel with
    | none => none
    | some (l, t, m') => some ({ b with admin_code := l, temp_code := t }, m')

/-- lock_box::del_code: erases the selected safe's slot (`select+1`). -/
def lock_box.del_code (b : lock_box) (m : Mem) : Mem :=
  (b.safe.getD b.select ⟨[], 0⟩).del_code (b.select + 1) m

/-- The five expected header bytes of initial_state: ASCII "josh" followed
by 1, the admin slot's active flag — byte 4 is part of what the source
checks for validity. -/
def hdrBytes : List Nat := [0x6A, 0x6F, 0x73, 0x68, 1]

/-- The validation loop of initial_state over header indices 0..n-1: compare
each EEPROM byte with the expected byte; on a mismatch clear the valid flag
and write the expected byte. -/
def hdrScan (m : Mem) : Nat → Mem × Bool
  | 0 => (m, true)
  | i + 1 =>
    if rd (hdrScan m i).1 i = hdrBytes.getD i 0 then hdrScan m i
    else (wr (hdrScan m i).1 i (hdrBytes.getD i 0), false)

/-- The invalid-header branch of initial_state: for i in 1..n, zero the
active and length bytes of slot record i (addresses `i*4` and `i*4+1`). -/
def zeroSlots (m : Mem) : Nat → Mem
  | 0 => m
  | i + 1 => wr (wr (zeroSlots m i) ((i + 1) * 4) 0) ((i + 1) * 4 + 1) 0

/-- state_machine::initial_state: scan the 5 header bytes (writing expected
bytes over mismatches); if all matched, load the admin code and the four
safe codes from EEPROM and go to userLocked; otherwise zero the active and
length bytes of all 5 slot records and go to adminLocked. -/
def state_machine.initial_state (sm : state_machine) (m : Mem) : state_machine × Mem :=
  let p := hdrScan m 5
  if p.2 then
    let b := sm.digi_safe
    let b1 := { b with
      admin_code := b.admin_code.read_code 0 p.1,
      safe := [(b.safe.getD 0 ⟨[], 0⟩).read_code 1 p.1,
               (b.safe.getD 1 ⟨[], 0⟩).read_code 2 p.1,
               (b.safe.getD 2 ⟨[], 0⟩).read_code 3 p.1,
               (b.safe.getD 3 ⟨[], 0⟩).read_code 4 p.1] }
    (({ sm with digi_safe := b1 }).set_state states.userLocked, p.1)
  else
    (sm.set_state states.adminLocked, zeroSlots p.1 5)

/-- Successive first-fit claims: `FirstFitSeq m s cs` says the addresses in
`cs` are, in order, the first non-occupied cell at or after `s`, then the
first non-occupied cell after that one, and so on — exactly the cells the
first-fit scan of lock::update_code claims for consecutive digits when no
wrap-around occurs. -/
def FirstFitSeq (m : Mem) : Nat → List Nat → Prop
  | _, [] => True
  | s, c :: cs =>
    s ≤ c ∧ (c - s) % 4 = 0 ∧ rd m c ≠ OCC ∧
    (∀ j < (c - s) / 4, rd m (s + 4 * j) = OCC) ∧ FirstFitSeq m (c + 4) cs

/-- Decidability of `FirstFitSeq` (used by concrete witnesses). -/
def firstFitSeqDec (m : Mem) : (s : Nat) → (cs : List Nat) → Decidable (FirstFitSeq m s cs)
  | _, [] => .isTrue trivial
  | s, c :: cs => by
    have := firstFitSeqDec m (c + 4) cs
    unfold FirstFitSeq
    infer_instance

instance (m : Mem) (s : Nat) (cs : List Nat) : Decidable (FirstFitSeq m s cs) :=
  firstFitSeqDec m s cs

/-- Stored-chain description: `ChainDesc m p cs ds` says memory `m` holds the
digits `ds` in the cells `cs`, linked starting from the pointer bytes at
`p`/`p+1` (big-endian split), each cell marked occupied, each cell's own
pointer field linking to the next. -/
def ChainDesc (m : Mem) : Nat → List Nat → List Nat → Prop
  | _, [], [] => True
  | p, c :: cs, d :: ds =>
    rd m p = c >>> 8 % 256 ∧ rd m (p + 1) = c % 256 ∧
    rd m c = OCC ∧ rd m (c + 1) = d % 256 ∧ ChainDesc m (c + 2) cs ds
  | _, _, _ => False

/-- Decidability of `ChainDesc` (used by concrete witnesses). -/
def chainDescDec (m : Mem) : (p : Nat) → (cs ds : List Nat) → Decidable (ChainDesc m p cs ds)
  | _, [], [] => .isTrue trivial
  | p, c :: cs, d :: ds => by
    have := chainDescDec m (c + 2) cs ds
    unfold ChainDesc
    infer_instance
  | _, [], _ :: _ => .isFalse (by simp [ChainDesc])
  | _, _ :: _, [] => .isFalse (by simp [ChainDesc])

instance (m : Mem) (p : Nat) (cs ds : List Nat) : Decidable (ChainDesc m p cs ds) :=
  chainDescDec m p cs ds

/-- Strictly spaced cell lists: each address at least 4 past the previous
one (chains produced by the first-fit scan are spaced this way). -/
def Spaced : Nat → List Nat → Prop
  | _, [] => True
  | s, c :: cs => s + 4 ≤ c ∧ Spaced c cs

/-- Decidability of `Spaced` (used by concrete witnesses). -/
def spacedDec : (s : Nat) → (cs : List Nat) → Decidable (Spaced s cs)
  | _, [] => .isTrue trivial
  | s, c :: cs => by
    have := spacedDec c cs
    unfold Spaced
    infer_instance

instance (s : Nat) (cs : List Nat) : Decidable (Spaced s cs) :=
  spacedDec s cs

/- Concrete inputs used by counterexamples and witnesses. -/

/-- An empty, default-constructed lock (`lock()` sets length 0 and
active 0). -/
def lock0 : lock := ⟨[], 0⟩

/-- A lock box whose admin code is 1-2-3-4-5, with one prior failed attempt
recorded. -/
def boxA1 : lock_box :=
  ⟨0, 1, [lock0, lock0, lock0, lock0], ⟨[1, 2, 3, 4, 5], 1⟩, ⟨[1, 2, 3, 4, 5], 1⟩⟩

/-- A lock box with admin code 1-2-3-4-5 and no failed attempts. -/
def boxA0 : lock_box :=
  ⟨0, 0, [lock0, lock0, lock0, lock0], ⟨[1, 2, 3, 4, 5], 1⟩, lock0⟩

/-- A freshly constructed lock box (all locks default-constructed). -/
def box0 : lock_box := ⟨0, 0, [lock0, lock0, lock0, lock0], lock0, lock0⟩

/-- A freshly constructed state machine (constructor sets `current_state =
initial`; `last_state` starts as whatever garbage was in memory — `initial`
is used here). -/
def smInit : state_machine := ⟨states.initial, states.initial, box0⟩

/-- EEPROM holding a fully valid header (magic "josh" and admin flag 1) and
an otherwise blank (all-zero, hence all-free) memory. -/
def memValid : Mem := fun a => if a < 5 then hdrBytes.getD a 0 else 0

/-- EEPROM whose magic signature "josh" is present but whose admin-active
byte (address 4) is 0, with blank memory elsewhere. -/
def memJosh : Mem := fun a => if a < 4 then hdrBytes.getD a 0 else 0

/-- EEPROM with a fully valid header region (bytes 0..23) and every byte of
the heap region (addresses 24 and up) reading the occupied marker 0xCC. -/
def memFull : Mem := fun a => if a < 24 then hdrBytes.getD a 0 else OCC

/-- A lock box with distinct admin and compartment-0 codes and no failed
attempts. -/
def boxTwo : lock_box :=
  ⟨0, 0, [⟨[2, 2, 2, 2, 2], 1⟩, lock0, lock0, lock0], ⟨[1, 1, 1, 1, 1], 1⟩, lock0⟩

/-- A scratch code matching neither code of `boxTwo`. -/
def wrongCode : lock := ⟨[9, 9, 9, 9, 9], 1⟩

/-!  ## Theorems -/

/-- Pointwise digit comparison of equal-length lists succeeds exactly on
equal lists. -/
theorem cmpDigits_iff : ∀ as bs : List Nat, as.length = bs.length →
    (cmpDigits as bs = true ↔ as = bs) := by
  intro as
  induction as with
  | nil => intro bs h; cases bs <;> simp_all [cmpDigits]
  | cons a as ih =>
    intro bs h
    cases bs with
    | nil => simp at h
    | cons b bs =>
      simp only [cmpDigits, Bool.and_eq_true, beq_iff_eq, List.cons.injEq]
      rw [ih bs (by simpa using h)]

/-- The result of lock::compare_code is 1 exactly on equal digit sequences
and 0 otherwise. -/
theorem compare_code_fst (self comp : lock) :
    (self.compare_code comp).1 = if self.code = comp.code then 1 else 0 := by
  unfold lock.compare_code
  by_cases hlen : self.code.length = comp.code.length
  · rw [if_neg (not_ne_iff.mpr hlen)]
    by_cases hcmp : cmpDigits self.code comp.code = true
    · rw [if_pos hcmp, if_pos ((cmpDigits_iff _ _ hlen).mp hcmp)]
    · rw [if_neg hcmp, if_neg (fun h => hcmp ((cmpDigits_iff _ _ hlen).mpr h))]
  · rw [if_pos hlen, if_neg (fun h : self.code = comp.code => hlen (by rw [h]))]

/-- The comparand handed to lock::compare_code always comes back empty. -/
theorem compare_code_snd (self comp : lock) :
    (self.compare_code comp).2 = ⟨[], 0⟩ := by
  unfold lock.compare_code
  split
  · rfl
  · split <;> rfl

/-- Closed-form description of lock_box::compare_code in terms of the
comparison target: a match reports 1 and touches nothing but the scratch
code; a mismatch bumps the shared counter, reporting 2 with a counter reset
on the third failure and 0 otherwise. -/
theorem compare_code_spec (b : lock_box) (sel : Nat) :
    b.compare_code sel =
      if (b.targetOf sel).code = b.temp_code.code then
        (1, { b with temp_code := ⟨[], 0⟩ })
      else if b.attempt + 1 = 3 then (2, { b with temp_code := ⟨[], 0⟩, attempt := 0 })
      else (0, { b with temp_code := ⟨[], 0⟩, attempt := b.attempt + 1 }) := by
  have hres : (if sel = 0 then (b.safe.getD b.select ⟨[], 0⟩).compare_code b.temp_code
      else b.admin_code.compare_code b.temp_code) = (b.targetOf sel).compare_code b.temp_code := by
    unfold lock_box.targetOf; split <;> rfl
  simp only [lock_box.compare_code, hres, compare_code_fst, compare_code_snd]
  by_cases hc : (b.targetOf sel).code = b.temp_code.code <;> simp [hc]

/-- One authentication step, in closed form. -/
theorem stepCmp_spec (b : lock_box) (t : lock) (sel : Nat) :
    stepCmp b t sel =
      if (b.targetOf sel).code = t.code then
        (1, { b with temp_code := ⟨[], 0⟩ })
      else if b.attempt + 1 = 3 then (2, { b with temp_code := ⟨[], 0⟩, attempt := 0 })
      else (0, { b with temp_code := ⟨[], 0⟩, attempt := b.attempt + 1 }) := by
  unfold stepCmp
  rw [compare_code_spec]
  rfl

/-- C6: a comparison with a comparand differing from the stored code in
length or in any digit returns Mismatched (0), and in every case — match or
mismatch, including an early length mismatch — the comparand is consumed:
its status flag is reset to 0 and its digit buffer emptied (length 0), so
comparisons are single-use. -/
theorem compare_code_mismatch_and_consumes (stored comp : lock) :
    (stored.code ≠ comp.code → (stored.compare_code comp).1 = 0) ∧
    (stored.compare_code comp).2.active = 0 ∧
    (stored.compare_code comp).2.code = [] := by
  refine ⟨fun h => ?_, ?_, ?_⟩
  · rw [compare_code_fst]; simp [h]
  · rw [compare_code_snd]
  · rw [compare_code_snd]

/-- C6 witness: comparing 1-2-3-4-5 against the scratch code 1-2-3-4-6
reports 0 and leaves the scratch entity empty. -/
theorem compare_code_mismatch_and_consumes_witness :
    ((lock.compare_code ⟨[1, 2, 3, 4, 5], 1⟩ ⟨[1, 2, 3, 4, 6], 1⟩).1 = 0) ∧
    ((lock.compare_code ⟨[1, 2, 3, 4, 5], 1⟩ ⟨[1, 2, 3, 4, 6], 1⟩).2.active = 0) ∧
    ((lock.compare_code ⟨[1, 2, 3, 4, 5], 1⟩ ⟨[1, 2, 3, 4, 6], 1⟩).2.code = []) :=
  ⟨(compare_code_mismatch_and_consumes ⟨[1, 2, 3, 4, 5], 1⟩ ⟨[1, 2, 3, 4, 6], 1⟩).1
      (by decide),
   (compare_code_mismatch_and_consumes ⟨[1, 2, 3, 4, 5], 1⟩ ⟨[1, 2, 3, 4, 6], 1⟩).2.1,
   (compare_code_mismatch_and_consumes ⟨[1, 2, 3, 4, 5], 1⟩ ⟨[1, 2, 3, 4, 6], 1⟩).2.2⟩

/-- C1 counterexample: with one failure recorded, a Matched comparison
(result 1) leaves the counter at 1 instead of resetting it to 0; moreover a
mismatch–match–mismatch–mismatch sequence against the admin code still ends
in result 2 (lockout), so an intervening Matched result does not prevent the
counter from reaching 3. -/
theorem compare_code_matched_no_reset_counterexample :
    ((boxA1.compare_code 1).1 = 1 ∧ (boxA1.compare_code 1).2.attempt = 1) ∧
    ((stepCmp (stepCmp (stepCmp (stepCmp boxA0 wrongCode 1).2
        ⟨[1, 2, 3, 4, 5], 1⟩ 1).2 wrongCode 1).2 wrongCode 1).1 = 2) := by
  decide

/-- C1 amended: whenever lock_box::compare_code returns Matched (1), the
consecutive-failure counter is left unchanged — it is not reset to 0, so a
single Matched result between mismatches does not prevent the counter from
reaching 3. -/
theorem compare_code_matched_preserves_attempt (b : lock_box) (code_sel : Nat)
    (h : (b.compare_code code_sel).1 = 1) :
    (b.compare_code code_sel).2.attempt = b.attempt := by
  rw [compare_code_spec] at h ⊢
  by_cases hc : (b.targetOf code_sel).code = b.temp_code.code
  · rw [if_pos hc]
  · rw [if_neg hc] at h
    by_cases h3 : b.attempt + 1 = 3 <;> simp [h3] at h

/-- C1 amended, witness: a Matched comparison on `boxA1` (counter 1) leaves
the counter at `boxA1.attempt`. -/
theorem compare_code_matched_preserves_attempt_witness :
    (boxA1.compare_code 1).2.attempt = boxA1.attempt :=
  compare_code_matched_preserves_attempt boxA1 1 (by decide)

/-- C4: starting from a zero failure counter, three consecutive mismatching
attempts against the same target (same `code_sel`, and the box's stored
locks and selection are untouched by comparisons) return 0, 0 and then 2
(LockedOut), and the third call resets the counter to 0. -/
theorem compare_code_three_mismatches_lockout (b : lock_box) (t1 t2 t3 : lock)
    (code_sel : Nat) (_hsel : code_sel = 0 ∨ code_sel = 1)
    (h0 : b.attempt = 0)
    (h1 : t1.code ≠ (b.targetOf code_sel).code)
    (h2 : t2.code ≠ (b.targetOf code_sel).code)
    (h3 : t3.code ≠ (b.targetOf code_sel).code) :
    (stepCmp b t1 code_sel).1 = 0 ∧
    (stepCmp (stepCmp b t1 code_sel).2 t2 code_sel).1 = 0 ∧
    (stepCmp (stepCmp (stepCmp b t1 code_sel).2 t2 code_sel).2 t3 code_sel).1 = 2 ∧
    (stepCmp (stepCmp (stepCmp b t1 code_sel).2 t2 code_sel).2 t3 code_sel).2.attempt = 0 := by
  clear _hsel
  have e1 : stepCmp b t1 code_sel =
      (0, { b with temp_code := ⟨[], 0⟩, attempt := 1 }) := by
    rw [stepCmp_spec, if_neg (fun hh => h1 hh.symm), h0]
    norm_num
  have ht2 : ({ b with temp_code := ⟨[], 0⟩, attempt := 1 } : lock_box).targetOf code_sel
      = b.targetOf code_sel := rfl
  have e2 : stepCmp ({ b with temp_code := ⟨[], 0⟩, attempt := 1 }) t2 code_sel =
      (0, { b with temp_code := ⟨[], 0⟩, attempt := 2 }) := by
    rw [stepCmp_spec, ht2, if_neg (fun hh => h2 hh.symm)]
    norm_num
  have ht3 : ({ b with temp_code := ⟨[], 0⟩, attempt := 2 } : lock_box).targetOf code_sel
      = b.targetOf code_sel := rfl
  have e3 : stepCmp ({ b with temp_code := ⟨[], 0⟩, attempt := 2 }) t3 code_sel =
      (2, { b with temp_code := ⟨[], 0⟩, attempt := 0 }) := by
    rw [stepCmp_spec, ht3, if_neg (fun hh => h3 hh.symm)]
    norm_num
  rw [e1, e2, e3]
  exact ⟨rfl, rfl, rfl, rfl⟩

/-- C4 witness: three wrong attempts against the admin code of `boxA0`
produce results 0, 0, 2 and end with the counter back at 0. -/
theorem compare_code_three_mismatches_lockout_witness :
    (stepCmp boxA0 wrongCode 1).1 = 0 ∧
    (stepCmp (stepCmp boxA0 wrongCode 1).2 wrongCode 1).1 = 0 ∧
    (stepCmp (stepCmp (stepCmp boxA0 wrongCode 1).2 wrongCode 1).2 wrongCode 1).1 = 2 ∧
    (stepCmp (stepCmp (stepCmp boxA0 wrongCode 1).2 wrongCode 1).2 wrongCode 1).2.attempt = 0 :=
  compare_code_three_mismatches_lockout boxA0 wrongCode wrongCode wrongCode 1
    (Or.inr rfl) (by decide) (by decide) (by decide) (by decide)

/-- C5 counterexample: mismatches spread across two different targets (admin,
then compartment 0, then admin again) still accumulate in the shared counter,
and the third call returns 2 (LockedOut) even though the three most recent
comparisons were not all against one and the same target. -/
theorem lockout_across_targets_counterexample :
    (stepCmp boxTwo wrongCode 1).1 = 0 ∧
    (stepCmp (stepCmp boxTwo wrongCode 1).2 wrongCode 0).1 = 0 ∧
    (stepCmp (stepCmp (stepCmp boxTwo wrongCode 1).2 wrongCode 0).2 wrongCode 1).1 = 2 := by
  decide

/-- C5 amended: lock_box::compare_code returns LockedOut (2) exactly when the
current comparison mismatches and the shared failure counter already stands
at 2 — the counter accumulates across targets (and is not reset by a Matched
result), so mismatches against different targets do count toward lockout. -/
theorem compare_code_lockout_iff (b : lock_box) (code_sel : Nat)
    (_hsel : code_sel = 0 ∨ code_sel = 1) :
    (b.compare_code code_sel).1 = 2 ↔
      (((b.targetOf code_sel).compare_code b.temp_code).1 = 0 ∧ b.attempt = 2) := by
  clear _hsel
  rw [compare_code_spec, compare_code_fst]
  by_cases hc : (b.targetOf code_sel).code = b.temp_code.code <;>
    by_cases h3 : b.attempt + 1 = 3 <;> simp [hc, h3] <;> omega

/-- C5 amended, witness: on `boxTwo` with two accumulated failures a third
admin mismatch reports 2, matching the characterization. -/
theorem compare_code_lockout_iff_witness :
    (({ boxTwo with attempt := 2, temp_code := wrongCode } : lock_box).compare_code 1).1 = 2 ↔
      (((({ boxTwo with attempt := 2, temp_code := wrongCode } : lock_box).targetOf 1).compare_code
          ({ boxTwo with attempt := 2, temp_code := wrongCode } : lock_box).temp_code).1 = 0 ∧
        ({ boxTwo with attempt := 2, temp_code := wrongCode } : lock_box).attempt = 2) :=
  compare_code_lockout_iff { boxTwo with attempt := 2, temp_code := wrongCode } 1 (Or.inr rfl)

/-- C10: entering Lockout from any state S and running lockout_state resumes
in S but records Lockout as the last state, so a single back_state performed
from S immediately re-enters Lockout. -/
theorem lockout_returns_and_back_reenters (sm : state_machine) :
    ((sm.set_state states.lockout).lockout_state).current_state = sm.current_state ∧
    ((sm.set_state states.lockout).lockout_state).last_state = states.lockout ∧
    (((sm.set_state states.lockout).lockout_state).back_state).current_state = states.lockout := by
  exact ⟨rfl, rfl, rfl⟩

/-- Writing to one address leaves every other address unchanged. -/
theorem wr_other (m : Mem) (a v x : Nat) (h : x ≠ a) : wr m a v x = m x := by
  simp [wr, h]

/-- Reading back a written byte. -/
theorem wr_self (m : Mem) (a v : Nat) : wr m a v a = v % 256 := by
  simp [wr]

/-- Every expected header byte is below 256. -/
theorem hdrBytes_lt (i : Nat) : hdrBytes.getD i 0 < 256 := by
  rcases i with _ | _ | _ | _ | _ | i <;> simp [hdrBytes, List.getD]

/-- The header scan only writes below its index bound. -/
theorem hdrScan_above (m : Mem) : ∀ n a, n ≤ a → (hdrScan m n).1 a = m a := by
  intro n
  induction n with
  | zero => intro a _; rfl
  | succ n ih =>
    intro a ha
    unfold hdrScan
    split
    · exact ih a (by omega)
    · dsimp only
      rw [wr_other _ _ _ _ (by omega)]
      exact ih a (by omega)

/-- The valid flag of the header scan is true exactly when every scanned
byte already matches the expected header byte. -/
theorem hdrScan_flag (m : Mem) : ∀ n, (hdrScan m n).2 = true ↔
    ∀ i < n, rd m i = hdrBytes.getD i 0 := by
  intro n
  induction n with
  | zero => simp [hdrScan]
  | succ n ih =>
    unfold hdrScan
    have hn : rd (hdrScan m n).1 n = rd m n := by
      unfold rd; rw [hdrScan_above m n n le_rfl]
    split
    · rename_i hmatch
      rw [hn] at hmatch
      rw [ih]
      constructor
      · intro h i hi
        rcases Nat.lt_succ_iff_lt_or_eq.mp hi with hi | hi
        · exact h i hi
        · rw [hi]; exact hmatch
      · intro h i hi; exact h i (by omega)
    · rename_i hmatch
      rw [hn] at hmatch
      constructor
      · intro h; exact absurd h (by simp)
      · intro h; exact absurd (h n (by omega)) hmatch

/-- When the header scan reports valid, it wrote nothing. -/
theorem hdrScan_valid_mem (m : Mem) : ∀ n, (hdrScan m n).2 = true → (hdrScan m n).1 = m := by
  intro n
  induction n with
  | zero => intro _; rfl
  | succ n ih =>
    unfold hdrScan
    split
    · exact ih
    · intro h; exact absurd h (by simp)

/-- After the header scan, every scanned position holds the expected header
byte (matching positions kept it, mismatching ones had it written). -/
theorem hdrScan_result (m : Mem) : ∀ n, ∀ i < n, rd (hdrScan m n).1 i = hdrBytes.getD i 0 := by
  intro n
  induction n with
  | zero => intro i hi; omega
  | succ n ih =>
    intro i hi
    unfold hdrScan
    rcases Nat.lt_succ_iff_lt_or_eq.mp hi with hi | hi
    · split
      · exact ih i hi
      · dsimp only
        unfold rd
        rw [wr_other _ _ _ _ (by omega)]
        exact ih i hi
    · subst hi
      split
      · rename_i hmatch
        exact hmatch
      · dsimp only
        unfold rd
        rw [wr_self, Nat.mod_mod_of_dvd _ dvd_rfl, Nat.mod_eq_of_lt (hdrBytes_lt i)]

/-- The slot-zeroing loop leaves untouched addresses unchanged. -/
theorem zeroSlots_other (m : Mem) : ∀ n a, (∀ i, 1 ≤ i → i ≤ n → a ≠ i * 4 ∧ a ≠ i * 4 + 1) →
    zeroSlots m n a = m a := by
  intro n
  induction n with
  | zero => intro a _; rfl
  | succ n ih =>
    intro a ha
    unfold zeroSlots
    have h1 := ha (n + 1) (by omega) le_rfl
    rw [wr_other _ _ _ _ h1.2, wr_other _ _ _ _ h1.1]
    exact ih a fun i hi1 hi2 => ha i hi1 (by omega)

/-- The slot-zeroing loop writes 0 over the active and length bytes of every
slot record in range. -/
theorem zeroSlots_hit (m : Mem) : ∀ n i, 1 ≤ i → i ≤ n →
    zeroSlots m n (i * 4) = 0 ∧ zeroSlots m n (i * 4 + 1) = 0 := by
  intro n
  induction n with
  | zero => intro i h1 h2; omega
  | succ n ih =>
    intro i h1 h2
    unfold zeroSlots
    by_cases h : i = n + 1
    · subst h
      constructor
      · rw [wr_other _ _ _ _ (by omega), wr_self]
      · rw [wr_self]
    · have hh := ih i h1 (by omega)
      constructor
      · rw [wr_other _ _ _ _ (by omega), wr_other _ _ _ _ (by omega)]; exact hh.1
      · rw [wr_other _ _ _ _ (by omega), wr_other _ _ _ _ (by omega)]; exact hh.2

set_option maxRecDepth 8192 in
/-- C3 counterexample: on an EEPROM whose 4-byte magic signature "josh" is
present but whose admin-active byte (address 4) is 0, initial_state takes
the invalid branch and transitions to adminLocked, not to userLocked as the
claim predicts for a present signature. -/
theorem initial_state_magic_not_sufficient :
    (∀ i < 4, rd memJosh i = hdrBytes.getD i 0) ∧
    (smInit.initial_state memJosh).1.current_state = states.adminLocked := by
  decide

/-- C3 amended: initial_state treats the header as valid only when all five
checked bytes — the 4-byte magic signature and the admin-active byte 1 at
address 4 — match.  If they all match, nothing is written, all 5 slots are
loaded from memory and the machine transitions to userLocked; otherwise each
mismatched expected byte is written, the active and length bytes of all 5
slot records are zeroed (so all slots become inactive; the pointer bytes are
not cleared) and the machine transitions to adminLocked.  Validity is
reported only through this state choice. -/
theorem initial_state_spec (sm : state_machine) (m : Mem) :
    ((∀ i < 5, rd m i = hdrBytes.getD i 0) →
      (sm.initial_state m).2 = m ∧
      (sm.initial_state m).1.current_state = states.userLocked ∧
      (sm.initial_state m).1.digi_safe.admin_code =
        sm.digi_safe.admin_code.read_code 0 m ∧
      (∀ j < 4, (sm.initial_state m).1.digi_safe.safe.getD j ⟨[], 0⟩ =
        (sm.digi_safe.safe.getD j ⟨[], 0⟩).read_code (j + 1) m)) ∧
    ((¬ ∀ i < 5, rd m i = hdrBytes.getD i 0) →
      (sm.initial_state m).1.current_state = states.adminLocked ∧
      (∀ i < 4, rd (sm.initial_state m).2 i = hdrBytes.getD i 0) ∧
      (∀ i, 1 ≤ i → i ≤ 5 → rd (sm.initial_state m).2 (i * 4) = 0 ∧
        rd (sm.initial_state m).2 (i * 4 + 1) = 0)) := by
  constructor
  · intro hvalid
    have hflag : (hdrScan m 5).2 = true := (hdrScan_flag m 5).mpr hvalid
    have hmem : (hdrScan m 5).1 = m := hdrScan_valid_mem m 5 hflag
    unfold state_machine.initial_state
    rw [if_pos hflag, hmem]
    refine ⟨rfl, rfl, rfl, ?_⟩
    intro j hj
    interval_cases j <;> rfl
  · intro hinvalid
    have hflag : (hdrScan m 5).2 = false := by
      cases h : (hdrScan m 5).2
      · rfl
      · exact absurd ((hdrScan_flag m 5).mp h) hinvalid
    unfold state_machine.initial_state
    rw [if_neg (by rw [hflag]; exact Bool.false_ne_true)]
    refine ⟨rfl, ?_, ?_⟩
    · intro i hi
      unfold rd
      dsimp only
      rw [zeroSlots_other _ _ _ (fun k hk1 hk2 => by omega)]
      exact hdrScan_result m 5 i (by omega)
    · intro i hi1 hi5
      have h := zeroSlots_hit (hdrScan m 5).1 5 i hi1 hi5
      unfold rd
      dsimp only
      rw [h.1, h.2]
      exact ⟨rfl, rfl⟩

/-- C3 amended, witness: on `memValid` (magic and admin flag present) the
machine loads the slots and reaches userLocked without writing anything. -/
theorem initial_state_spec_witness :
    (smInit.initial_state memValid).2 = memValid ∧
    (smInit.initial_state memValid).1.current_state = states.userLocked ∧
    (smInit.initial_state memValid).1.digi_safe.admin_code =
      smInit.digi_safe.admin_code.read_code 0 memValid ∧
    (∀ j < 4, (smInit.initial_state memValid).1.digi_safe.safe.getD j ⟨[], 0⟩ =
      (smInit.digi_safe.safe.getD j ⟨[], 0⟩).read_code (j + 1) memValid) :=
  (initial_state_spec smInit memValid).1 (by decide)

/-- When every byte of the address space reads as occupied, the first-fit
scan never returns, whatever the fuel. -/
theorem findFree_all_occupied (m : Mem) (h : ∀ a, rd m a = OCC) :
    ∀ fuel s, findFree m fuel s = none := by
  intro fuel
  induction fuel with
  | zero => intro s; rfl
  | succ fuel ih =>
    intro s
    unfold findFree
    rw [if_pos (h s)]
    exact ih _

/-- The first-fit scan stops at the first scanned address (stepping by 4,
wrapping modulo 2^16) whose marker byte is not 0xCC, provided the fuel
covers the distance. -/
theorem findFree_first_free (m : Mem) : ∀ n s fuel, s < 65536 → n < fuel →
    (∀ j < n, rd m ((s + 4 * j) % 65536) = OCC) →
    rd m ((s + 4 * n) % 65536) ≠ OCC →
    findFree m fuel s = some ((s + 4 * n) % 65536) := by
  intro n
  induction n with
  | zero =>
    intro s fuel hs hf _ hfree
    obtain ⟨f, rfl⟩ : ∃ f, fuel = f + 1 := ⟨fuel - 1, by omega⟩
    simp only [Nat.mul_zero, Nat.add_zero] at hfree ⊢
    rw [Nat.mod_eq_of_lt hs] at hfree ⊢
    unfold findFree
    rw [if_neg hfree]
  | succ n ih =>
    intro s fuel hs hf hocc hfree
    obtain ⟨f, rfl⟩ : ∃ f, fuel = f + 1 := ⟨fuel - 1, by omega⟩
    have h0 : rd m s = OCC := by
      have := hocc 0 (by omega)
      rwa [Nat.mul_zero, Nat.add_zero, Nat.mod_eq_of_lt hs] at this
    unfold findFree
    rw [if_pos h0]
    have hs4 : a16 (s + 4) = (s + 4) % 65536 := rfl
    rw [hs4]
    have step : ∀ k, ((s + 4) % 65536 + 4 * k) % 65536 = (s + 4 * (k + 1)) % 65536 := by
      intro k
      rw [Nat.mod_add_mod]
      congr 1
      ring
    have := ih ((s + 4) % 65536) f (Nat.mod_lt _ (by omega)) (by omega)
      (fun j hj => by rw [step j]; exact hocc (j + 1) (by omega))
      (by rw [step n]; exact hfree)
    rw [this, step n]

/-- C7 counterexample: with a valid header and every cell of the heap region
occupied (all markers 0xCC), the scan does not run forever — the 16-bit scan
pointer wraps past address 65532 to 0, and the scan claims address 0 (the
header's magic byte), because its byte 0x6A is not the occupied marker. -/
theorem findFree_full_heap_wraps :
    (∀ k < 16378, rd memFull (24 + 4 * k) = OCC) ∧
    findFree memFull 16379 24 = some 0 := by
  constructor
  · intro k hk
    have h24 : ¬ (24 + 4 * k) < 24 := by omega
    simp [memFull, rd, h24, OCC]
  · have hj : ∀ j < 16378, rd memFull ((24 + 4 * j) % 65536) = OCC := by
      intro j hj
      rw [Nat.mod_eq_of_lt (by omega)]
      have h24 : ¬ (24 + 4 * j) < 24 := by omega
      simp [memFull, rd, h24, OCC]
    have hn : rd memFull ((24 + 4 * 16378) % 65536) ≠ OCC := by
      have h0 : (24 + 4 * 16378) % 65536 = 0 := by norm_num
      rw [h0]
      decide
    have h := findFree_first_free memFull 16378 24 16379 (by norm_num) (by norm_num) hj hn
    have h0 : some ((24 + 4 * 16378) % 65536) = some (0 : Nat) := by norm_num
    exact h.trans h0

/-- C7 amended: the first-fit scan fails to terminate only when every byte it
can ever read is the occupied marker — in particular, occupancy of just the
heap region does not make it spin, since the 16-bit scan pointer wraps
around and reaches the header.  Part 1: if every address reads 0xCC, the
scan returns none at every fuel (non-termination).  Part 2: whenever the
scanned sequence (stepping by 4 from the scan position, modulo 2^16) reaches
a first non-occupied address, the scan terminates exactly there. -/
theorem findFree_termination_spec :
    (∀ (m : Mem), (∀ a, rd m a = OCC) → ∀ fuel s, findFree m fuel s = none) ∧
    (∀ (m : Mem) (n s fuel : Nat), s < 65536 → n < fuel →
      (∀ j < n, rd m ((s + 4 * j) % 65536) = OCC) →
      rd m ((s + 4 * n) % 65536) ≠ OCC →
      findFree m fuel s = some ((s + 4 * n) % 65536)) :=
  ⟨findFree_all_occupied, fun m n s fuel hs hf hocc hfree =>
    findFree_first_free m n s fuel hs hf hocc hfree⟩

/-- C7 amended, witness: an everywhere-occupied memory defeats a fuel-5 scan
from 24; on the blank-heap `memValid` the scan claims cell 24 at once. -/
theorem findFree_termination_spec_witness :
    findFree (fun _ => OCC) 5 24 = none ∧
    findFree memValid 1 24 = some ((24 + 4 * 0) % 65536) :=
  ⟨findFree_termination_spec.1 (fun _ => OCC) (fun _ => rfl) 5 24,
   findFree_termination_spec.2 memValid 0 24 1 (by norm_num) (by norm_num)
     (fun j hj => absurd hj (by omega)) (by decide)⟩

/-- Recombining a low byte with a shifted high part: for a low byte under
256 the bitwise-or in `addr[0] | (addr[1] << 8)` is plain addition. -/
theorem lor_split (b k : Nat) (hb : b < 256) : b ||| (k <<< 8) = 256 * k + b := by
  apply Nat.eq_of_testBit_eq
  intro i
  rw [Nat.testBit_lor, Nat.testBit_shiftLeft]
  by_cases hi : i < 8
  · have hge : ¬ (i ≥ 8) := by omega
    simp only [ge_iff_le, hge, decide_False, Bool.false_and, Bool.or_false]
    rw [Nat.testBit_to_div_mod, Nat.testBit_to_div_mod]
    have h256 : (256 : Nat) = 2 ^ i * 2 ^ (8 - i) := by
      rw [← Nat.pow_add, show i + (8 - i) = 8 by omega]
    have h1 : 256 * k + b = 2 ^ i * (2 ^ (8 - i) * k) + b := by
      rw [h256]; ring
    rw [h1, Nat.mul_add_div (Nat.two_pow_pos i)]
    have h2 : 2 ^ (8 - i) * k = 2 * (2 ^ (7 - i) * k) := by
      rw [show (8 - i) = (7 - i) + 1 by omega, Nat.pow_succ]
      ring
    rw [h2, Nat.mul_add_mod]
  · have hge : i ≥ 8 := by omega
    simp only [ge_iff_le, hge, decide_True, Bool.true_and]
    have hb8 : b < 2 ^ i :=
      lt_of_lt_of_le hb (by calc (256 : Nat) = 2 ^ 8 := by norm_num
                              _ ≤ 2 ^ i := Nat.pow_le_pow_right (by norm_num) hge)
    rw [Nat.testBit_lt_two_pow hb8]
    simp only [Bool.false_or]
    rw [Nat.testBit_to_div_mod, Nat.testBit_to_div_mod]
    have h1 : 2 ^ i = 256 * 2 ^ (i - 8) := by
      rw [show i = 8 + (i - 8) by omega, Nat.pow_add]
      norm_num
    rw [h1, ← Nat.div_div_eq_div_mul, Nat.mul_add_div (by norm_num), Nat.div_eq_of_lt hb,
      Nat.add_zero]

/-- Reassembling a 16-bit cell address from its stored low and high bytes. -/
theorem lor_bytes (c : Nat) (hc : c < 65536) :
    (c % 256) ||| ((c >>> 8 % 256) <<< 8) = c := by
  have h : c >>> 8 % 256 = c >>> 8 := by
    rw [Nat.shiftRight_eq_div_pow]
    exact Nat.mod_eq_of_lt (by norm_num; omega)
  rw [h, lor_split _ _ (Nat.mod_lt _ (by norm_num)), Nat.shiftRight_eq_div_pow]
  norm_num
  omega

/-- Every cell of a first-fit sequence lies at or after the scan start. -/
theorem firstFitSeq_ge (m : Mem) : ∀ (cs : List Nat) (s : Nat), FirstFitSeq m s cs →
    ∀ c ∈ cs, s ≤ c := by
  intro cs
  induction cs with
  | nil => intro s _ c hc; simp at hc
  | cons c cs ih =>
    intro s h c' hc'
    obtain ⟨h1, _, _, _, h5⟩ := h
    rcases List.mem_cons.mp hc' with hc' | hc'
    · omega
    · have := ih (c + 4) h5 c' hc'
      omega

/-- Every cell of a first-fit sequence reads as free. -/
theorem firstFitSeq_free (m : Mem) : ∀ (cs : List Nat) (s : Nat), FirstFitSeq m s cs →
    ∀ c ∈ cs, rd m c ≠ OCC := by
  intro cs
  induction cs with
  | nil => intro s _ c hc; simp at hc
  | cons c cs ih =>
    intro s h c' hc'
    obtain ⟨_, _, h3, _, h5⟩ := h
    rcases List.mem_cons.mp hc' with hc' | hc'
    · exact hc' ▸ h3
    · exact ih (c + 4) h5 c' hc'

/-- Cells of a first-fit sequence started on a 4-aligned address are
4-aligned. -/
theorem firstFitSeq_mod (m : Mem) : ∀ (cs : List Nat) (s : Nat), FirstFitSeq m s cs →
    s % 4 = 0 → ∀ c ∈ cs, c % 4 = 0 := by
  intro cs
  induction cs with
  | nil => intro s _ _ c hc; simp at hc
  | cons c cs ih =>
    intro s h hs c' hc'
    obtain ⟨h1, h2, _, _, h5⟩ := h
    have hc : c % 4 = 0 := by omega
    rcases List.mem_cons.mp hc' with hc' | hc'
    · omega
    · exact ih (c + 4) h5 (by omega) c' hc'

/-- A first-fit sequence only mentions memory at or after the scan start, so
agreement there transfers it between memories. -/
theorem firstFitSeq_congr (m m' : Mem) : ∀ (cs : List Nat) (s : Nat),
    (∀ a, s ≤ a → m' a = m a) → FirstFitSeq m s cs → FirstFitSeq m' s cs := by
  intro cs
  induction cs with
  | nil => intro s _ _; trivial
  | cons c cs ih =>
    intro s hagree h
    obtain ⟨h1, h2, h3, h4, h5⟩ := h
    refine ⟨h1, h2, ?_, ?_, ?_⟩
    · unfold rd
      rw [hagree c h1]
      exact h3
    · intro j hj
      unfold rd
      rw [hagree (s + 4 * j) (by omega)]
      exact h4 j hj
    · exact ih (c + 4) (fun a ha => hagree a (by omega)) h5

/-- A chain description only mentions its pointer slot and the four bytes of
each of its cells, so agreement there transfers it between memories. -/
theorem chainDesc_congr (m m' : Mem) : ∀ (cs ds : List Nat) (p : Nat),
    ChainDesc m p cs ds →
    (∀ a, (a = p ∨ a = p + 1 ∨ ∃ c ∈ cs, a = c ∨ a = c + 1 ∨ a = c + 2 ∨ a = c + 3) →
      m' a = m a) →
    ChainDesc m' p cs ds := by
  intro cs
  induction cs with
  | nil =>
    intro ds p h _
    cases ds with
    | nil => trivial
    | cons d ds => exact absurd h (by simp [ChainDesc])
  | cons c cs ih =>
    intro ds p h hagree
    cases ds with
    | nil => exact absurd h (by simp [ChainDesc])
    | cons d ds =>
      obtain ⟨h1, h2, h3, h4, h5⟩ := h
      refine ⟨?_, ?_, ?_, ?_, ?_⟩
      · unfold rd; rw [hagree p (Or.inl rfl)]; exact h1
      · unfold rd; rw [hagree (p + 1) (Or.inr (Or.inl rfl))]; exact h2
      · unfold rd
        rw [hagree c (Or.inr (Or.inr ⟨c, List.mem_cons_self c cs, Or.inl rfl⟩))]
        exact h3
      · unfold rd
        rw [hagree (c + 1)
          (Or.inr (Or.inr ⟨c, List.mem_cons_self c cs, Or.inr (Or.inl rfl)⟩))]
        exact h4
      · refine ih ds (c + 2) h5 (fun a ha => hagree a ?_)
        rcases ha with ha | ha | ⟨c', hc', ha⟩
        · exact Or.inr (Or.inr ⟨c, List.mem_cons_self c cs, Or.inr (Or.inr (Or.inl ha))⟩)
        · exact Or.inr (Or.inr ⟨c, List.mem_cons_self c cs, Or.inr (Or.inr (Or.inr ha))⟩)
        · exact Or.inr (Or.inr ⟨c', List.mem_cons_of_mem c hc', ha⟩)

/-- Every cell of a described chain reads as occupied. -/
theorem chainDesc_occ (m : Mem) : ∀ (cs ds : List Nat) (p : Nat),
    ChainDesc m p cs ds → ∀ c ∈ cs, rd m c = OCC := by
  intro cs
  induction cs with
  | nil => intro ds p _ c hc; simp at hc
  | cons c cs ih =>
    intro ds p h c' hc'
    cases ds with
    | nil => exact absurd h (by simp [ChainDesc])
    | cons d ds =>
      obtain ⟨_, _, h3, _, h5⟩ := h
      rcases List.mem_cons.mp hc' with hc' | hc'
      · exact hc' ▸ h3
      · exact ih ds (c + 2) h5 c' hc'

/-- Reading a described chain back: lock::read_code's chain walk over a
memory holding the chain `cs`/`ds` from pointer slot `p` reconstructs the
digits (as stored, i.e. reduced modulo 256). -/
theorem readChain_chainDesc (m : Mem) : ∀ (cs ds : List Nat) (p : Nat),
    ChainDesc m p cs ds → p + 1 < 65536 → (∀ c ∈ cs, c + 3 < 65536) →
    readChain m p ds.length = ds.map (fun d => d % 256) := by
  intro cs
  induction cs with
  | nil =>
    intro ds p h _ _
    cases ds with
    | nil => rfl
    | cons d ds => exact absurd h (by simp [ChainDesc])
  | cons c cs ih =>
    intro ds p h hp hb
    cases ds with
    | nil => exact absurd h (by simp [ChainDesc])
    | cons d ds =>
      obtain ⟨h1, h2, h3, h4, h5⟩ := h
      have hc3 : c + 3 < 65536 := (hb c (List.mem_cons_self c cs))
      show readChain m p (ds.length + 1) = _
      unfold readChain
      have e1 : a16 (p + 1) = p + 1 := Nat.mod_eq_of_lt (by omega)
      rw [e1, h1, h2]
      dsimp only
      rw [lor_bytes c (by omega)]
      have e2 : a16 (c + 1) = c + 1 := Nat.mod_eq_of_lt (by omega)
      have e3 : a16 (c + 2) = c + 2 := Nat.mod_eq_of_lt (by omega)
      rw [e2, e3, h4,
        ih ds (c + 2) h5 (by omega) (fun c' hc' => hb c' (List.mem_cons_of_mem c hc'))]
      rfl

/-- The scan from `s` claims exactly the first non-occupied 4-stepped
address `c`, without wrap-around, when the fuel covers the distance. -/
theorem findFree_of_firstFit (m : Mem) (s c fuel : Nat) (hsc : s ≤ c)
    (hmod : (c - s) % 4 = 0) (hfree : rd m c ≠ OCC)
    (hocc : ∀ j < (c - s) / 4, rd m (s + 4 * j) = OCC)
    (hfuel : c + 4 ≤ s + 4 * fuel) (hc : c < 65536) :
    findFree m fuel s = some c := by
  have hn : s + 4 * ((c - s) / 4) = c := by omega
  have h := findFree_first_free m ((c - s) / 4) s fuel (by omega) (by omega)
    (fun j hj => by
      rw [Nat.mod_eq_of_lt (show s + 4 * j < 65536 by omega)]
      exact hocc j hj)
    (by rw [hn, Nat.mod_eq_of_lt hc]; exact hfree)
  rwa [hn, Nat.mod_eq_of_lt hc] at h

/-- Main allocator lemma: when the heap offers a first-fit sequence of free
cells for the digits `ds` (reachable without 16-bit wrap-around and within
the scan fuel), the per-digit allocation loop of lock::update_code succeeds,
lays the digits down as the chain described by `ChainDesc`, and writes
nothing outside the pointer slot and the four bytes of each claimed cell. -/
theorem storeChain_spec : ∀ (ds cs : List Nat) (m : Mem) (p s fuel : Nat),
    FirstFitSeq m s cs → cs.length = ds.length →
    (∀ c ∈ cs, c + 4 < 65536) → (∀ c ∈ cs, c + 4 ≤ s + 4 * fuel) →
    p + 1 < s →
    ∃ m' q r, storeChain m p s ds fuel = some (m', q, r) ∧
      ChainDesc m' p cs ds ∧
      (∀ a, a ≠ p → a ≠ p + 1 →
        (∀ c ∈ cs, a ≠ c ∧ a ≠ c + 1 ∧ a ≠ c + 2 ∧ a ≠ c + 3) → m' a = m a) := by
  intro ds
  induction ds with
  | nil =>
    intro cs m p s fuel hffs hlen _ _ _
    cases cs with
    | cons c cs => simp at hlen
    | nil => exact ⟨m, p, s, rfl, trivial, fun a _ _ _ => rfl⟩
  | cons d ds ih =>
    intro cs m p s fuel hffs hlen hb1 hb2 hp
    cases cs with
    | nil => simp at hlen
    | cons c cs =>
      obtain ⟨hsc, hmod, hfree, hocc, hseq⟩ := hffs
      have hcb1 : c + 4 < 65536 := hb1 c (List.mem_cons_self c _)
      have hcb2 : c + 4 ≤ s + 4 * fuel := hb2 c (List.mem_cons_self c _)
      have hcge : ∀ c' ∈ cs, c + 4 ≤ c' := firstFitSeq_ge m cs (c + 4) hseq
      have hfind : findFree m fuel s = some c :=
        findFree_of_firstFit m s c fuel hsc hmod hfree hocc hcb2 (by omega)
      set m4 : Mem :=
        wr (wr (wr (wr m p (c >>> 8 % 256)) (p + 1) (c % 256)) c OCC) (c + 1) d with hm4
      have hup : ∀ a, c + 2 ≤ a → m4 a = m a := by
        intro a ha
        rw [hm4, wr_other _ _ _ _ (by omega), wr_other _ _ _ _ (by omega),
          wr_other _ _ _ _ (by omega), wr_other _ _ _ _ (by omega)]
      have hffs4 : FirstFitSeq m4 (c + 4) cs :=
        firstFitSeq_congr m m4 cs (c + 4) (fun a ha => hup a (by omega)) hseq
      obtain ⟨m5, q, r, heq, hcd, hframe⟩ := ih cs m4 (c + 2) (c + 4) fuel hffs4
        (by simp at hlen ⊢; omega)
        (fun c' hc' => hb1 c' (List.mem_cons_of_mem c hc'))
        (fun c' hc' => le_trans (hb2 c' (List.mem_cons_of_mem c hc')) (by omega))
        (by omega)
      refine ⟨m5, q, r, ?_, ?_, ?_⟩
      · show storeChain m p s (d :: ds) fuel = some (m5, q, r)
        have e1 : a16 (p + 1) = p + 1 := Nat.mod_eq_of_lt (by omega)
        have e2 : a16 (c + 1) = c + 1 := Nat.mod_eq_of_lt (by omega)
        have e3 : a16 (c + 2) = c + 2 := Nat.mod_eq_of_lt (by omega)
        have e4 : a16 (c + 4) = c + 4 := Nat.mod_eq_of_lt (by omega)
        simp only [storeChain, hfind]
        rw [e1, e2, e3, e4, ← hm4]
        exact heq
      · have hqc : ∀ a, a < c + 2 → m5 a = m4 a := by
          intro a ha
          exact hframe a (by omega) (by omega) (fun c' hc' => by have := hcge c' hc'; omega)
        have hv1 : m4 p = c >>> 8 % 256 % 256 := by
          rw [hm4, wr_other _ _ _ _ (by omega), wr_other _ _ _ _ (by omega),
            wr_other _ _ _ _ (by omega), wr_self]
        have hv2 : m4 (p + 1) = c % 256 % 256 := by
          rw [hm4, wr_other _ _ _ _ (by omega), wr_other _ _ _ _ (by omega), wr_self]
        have hv3 : m4 c = OCC % 256 := by
          rw [hm4, wr_other _ _ _ _ (by omega), wr_self]
        have hv4 : m4 (c + 1) = d % 256 := by
          rw [hm4, wr_self]
        refine ⟨?_, ?_, ?_, ?_, hcd⟩
        · unfold rd
          rw [hqc p (by omega), hv1, Nat.mod_mod_of_dvd _ dvd_rfl,
            Nat.mod_mod_of_dvd _ dvd_rfl]
        · unfold rd
          rw [hqc (p + 1) (by omega), hv2, Nat.mod_mod_of_dvd _ dvd_rfl,
            Nat.mod_mod_of_dvd _ dvd_rfl]
        · unfold rd
          rw [hqc c (by omega), hv3]
          decide
        · unfold rd
          rw [hqc (c + 1) (by omega), hv4, Nat.mod_mod_of_dvd _ dvd_rfl]
      · intro a hap hap1 hquads
        obtain ⟨ha1, ha2, ha3, ha4⟩ := hquads c (List.mem_cons_self c cs)
        have h5 := hframe a ha3 ha4 (fun c' hc' => hquads c' (List.mem_cons_of_mem c hc'))
        rw [h5, hm4, wr_other _ _ _ _ ha2, wr_other _ _ _ _ ha1,
          wr_other _ _ _ _ hap1, wr_other _ _ _ _ hap]
